import Mathlib

/-!
Verification of the novel-forge memory & consistency subsystem specification
against the repository's code.

The editor operations (undo/redo, cursor insertion, token highlighting) are
embedded from the React component `MainContent` (src/unnamed/part_006).
The memory store, knowledge graph, context assembler and orchestrator are
modelled from the specification: the backend modules the README lists
(app/memory.py, app/pipeline/knowledge_graph.py, app/context_manager.py,
app/pipeline/workflow.py) are not among the repository files, only their
SQL schema and callers are.
-/

namespace NovelForge

/-! ## Editor state (MainContent, src/unnamed/part_006)

The component keeps `chapterContent` (the text), `history` (the undo stack,
newest at the end) and `redoStack` (newest at the front). -/

structure EditorState where
  chapterContent : String
  history : List String
  redoStack : List String
deriving Repr, DecidableEq

/-- `handleUndo` (src/unnamed/part_006 lines 58-64): if the undo stack is
empty do nothing; otherwise push the current content on the redo stack, pop
the last element of `history` and make it the content. -/
def handleUndo (s : EditorState) : EditorState :=
  match s.history.getLast? with
  | none => s
  | some last =>
      { chapterContent := last
        history := s.history.dropLast
        redoStack := s.chapterContent :: s.redoStack }

/-- `handleRedo` (src/unnamed/part_006 lines 67-73): if the redo stack is
empty do nothing; otherwise append the current content to `history`, pop the
front of `redoStack` and make it the content. -/
def handleRedo (s : EditorState) : EditorState :=
  match s.redoStack with
  | [] => s
  | next :: rest =>
      { chapterContent := next
        history := s.history ++ [s.chapterContent]
        redoStack := rest }

/-- `handleInsertAtCursor` (src/unnamed/part_006 lines 76-92), content
computation: `before = content.slice(0, selectionStart)`,
`after = content.slice(selectionEnd)`, new content `before + text + after`.
Strings are embedded as lists of characters; for the non-negative in-range
selection indices of a textarea, JavaScript `slice` is `take`/`drop`. -/
def handleInsertAtCursor (content text : List Char) (selStart selEnd : Nat) :
    List Char :=
  let before := content.take selStart
  let after := content.drop selEnd
  before ++ text ++ after

/-! ## Highlighting (`highlightContent`, src/unnamed/part_006 lines 98-149)

The source scans the text with three global regexes,
`@([一-龥\w\-]+)`, `#(...)` and `*(...)`, repeatedly taking the
match with the smallest index at or after `lastIdx`, emitting the plain
slice `text.slice(lastIdx, minNext)` when non-empty, then the match itself
as a highlighted span, and finally the remaining tail. Because the three
sigil characters are distinct, at most one pattern can match at a given
index, so the minimum over the three first-matches is the first position
whose character is a sigil followed by at least one name character; the
scanner below walks the text once on that basis. -/

inductive TokenKind where
  | character
  | location
  | item
deriving Repr, DecidableEq

/-- Which of the three patterns starts with this character:
`@` character, `#` location, `*` item. -/
def sigilKind (c : Char) : Option TokenKind :=
  if c = '@' then some TokenKind.character
  else if c = '#' then some TokenKind.location
  else if c = '*' then some TokenKind.item
  else none

/-- The character class `[一-龥\w\-]` of the source regexes:
CJK ideographs U+4E00..U+9FA5, ASCII letters and digits (`\w` without the
`u` flag), underscore, and hyphen. -/
def isNameChar (c : Char) : Bool :=
  (0x4e00 ≤ c.toNat && c.toNat ≤ 0x9fa5) || c.isAlphanum || c = '_' || c = '-'

/-- One fragment emitted by `highlightContent`: either a plain slice of the
input, or a matched token span rendered as a highlighted element. In both
cases the stored characters are the exact source text of the fragment. -/
inductive Fragment where
  | plain (s : List Char)
  | token (kind : TokenKind) (s : List Char)
deriving Repr, DecidableEq

/-- The source text a fragment stands for. -/
def fragText : Fragment → List Char
  | Fragment.plain s => s
  | Fragment.token _ s => s

/-- Concatenation of the source text of a fragment list, in order. -/
def joinFragments : List Fragment → List Char
  | [] => []
  | f :: fs => fragText f ++ joinFragments fs

/-- Prepend one plain character, merging it into a leading plain fragment so
that maximal runs of unmatched characters form a single plain slice, as the
source's `text.slice(lastIdx, minNext)` does. -/
def pushPlain (c : Char) : List Fragment → List Fragment
  | Fragment.plain s :: fs => Fragment.plain (c :: s) :: fs
  | fs => Fragment.plain [c] :: fs

/-- The fragment stream of `highlightContent` (src/unnamed/part_006 lines
102-148): at the first position where a sigil is followed by at least one
name character, emit the pending plain text and then the whole match
(sigil plus the maximal name-character run); every other character joins
the current plain run. -/
def highlightContent : List Char → List Fragment
  | [] => []
  | c :: rest =>
    match sigilKind c with
    | some k =>
      match rest with
      | [] => pushPlain c []
      | d :: tl =>
        if isNameChar d then
          Fragment.token k (c :: (d :: tl).takeWhile isNameChar) ::
            highlightContent ((d :: tl).dropWhile isNameChar)
        else
          pushPlain c (highlightContent (d :: tl))
    | none => pushPlain c (highlightContent rest)
termination_by l => l.length
decreasing_by
  · exact Nat.lt_succ_of_le ((List.dropWhile_sublist isNameChar).length_le)
  · simp
  · simp

/-! ## Long-Term Memory Store

Modelled from the spec: the store module the README lists
(backend/app/memory.py, backend/app/memory_system.py) is not among the
repository's files; only the SQL schema (src/backend/requirements.txt,
tables `memory_entries`, `vector_memories`, `version_history` and the
function `get_related_memories`) and the spec (§3, §4.1) describe it.
Embedding and similarity providers are opaque externals (spec §6), so they
are parameters; similarity scores are integers with `1` standing for the
cosine score 1.0. -/

/-- Modelled from the spec: a MemoryEntry (spec §3) with id, project id,
kind, content text, metadata mapping, embedding vector, created timestamp,
and version chain pointer (previous version id or none). -/
structure MemoryEntry where
  id : Nat
  project : Nat
  kind : String
  content : String
  metadata : List (String × String)
  embedding : List Int
  created : Nat
  prevVersion : Option Nat
deriving Repr, DecidableEq

/-- Similarity of the query embedding `q` to a stored entry's embedding. -/
def simScore (sim : List Int → List Int → Int) (q : List Int)
    (e : MemoryEntry) : Int :=
  sim q e.embedding

/-- Modelled from the spec: the ranking order of `query` (spec §4.1) —
`a` ranks at or before `b` when `a`'s similarity exceeds `b`'s by more than
the epsilon, or the two scores are within the epsilon of each other and `a`
is at least as recent (ties broken by recency, newer wins). -/
def rankRel (sim : List Int → List Int → Int) (eps : Int) (q : List Int)
    (a b : MemoryEntry) : Prop :=
  simScore sim q b + eps < simScore sim q a ∨
    (|simScore sim q a - simScore sim q b| ≤ eps ∧ b.created ≤ a.created)

instance (sim : List Int → List Int → Int) (eps : Int) (q : List Int) :
    DecidableRel (rankRel sim eps q) := fun a b => by
  unfold rankRel
  infer_instance

/-- Modelled from the spec: `query(projectId, text, filters, topK)`
(spec §4.1) — nearest-neighbor search by vector similarity combined with
metadata filtering, ranked by similarity with ties within an epsilon broken
by recency, truncated to the top `topK`. -/
def query (sim : List Int → List Int → Int) (eps : Int)
    (embed : String → List Int) (entries : List MemoryEntry)
    (project : Nat) (text : String) (fil : MemoryEntry → Bool)
    (topK : Nat) : List MemoryEntry :=
  let q := embed text
  ((entries.filter fun e => e.project == project && fil e).insertionSort
      (rankRel sim eps q)).take topK

/-- Modelled from the spec: `add(entry)` (spec §4.1) — computes the
embedding via the embedding provider and persists the entry; the store is
append-only, `nextId` is the fresh id and `now` the creation timestamp. -/
def addEntry (embed : String → List Int) (entries : List MemoryEntry)
    (nextId project : Nat) (kind content : String)
    (metadata : List (String × String)) (now : Nat) : List MemoryEntry :=
  entries ++
    [{ id := nextId, project := project, kind := kind, content := content,
       metadata := metadata, embedding := embed content, created := now,
       prevVersion := none }]

/-- The stored entry with the given id, as written (a read of a specific
version). -/
def findEntry (entries : List MemoryEntry) (entryId : Nat) :
    Option MemoryEntry :=
  entries.find? fun e => e.id == entryId

/-- The version whose chain pointer names `entryId`, if any. -/
def successorOf (entries : List MemoryEntry) (entryId : Nat) :
    Option MemoryEntry :=
  entries.find? fun e => e.prevVersion == some entryId

/-- Modelled from the spec: `update(entryId, newContent)` (spec §4.1) —
appends a new version linked to the previous one; the stored entry is never
modified in place and nothing is deleted. -/
def updateEntry (embed : String → List Int) (entries : List MemoryEntry)
    (nextId now entryId : Nat) (newContent : String) : List MemoryEntry :=
  match findEntry entries entryId with
  | none => entries
  | some e =>
      entries ++
        [{ e with
            id := nextId
            content := newContent
            embedding := embed newContent
            created := now
            prevVersion := some entryId }]

/-- Walk the version chain forward from `entryId` with bounded fuel: the
latest version is the one with no successor. -/
def latestFrom (entries : List MemoryEntry) : Nat → Nat → Option MemoryEntry
  | 0, _ => none
  | fuel + 1, entryId =>
    match findEntry entries entryId with
    | none => none
    | some e =>
      match successorOf entries entryId with
      | none => some e
      | some e' => latestFrom entries fuel e'.id

/-- Modelled from the spec: a read of `entryId` without a version request
returns the latest version of its chain (spec §4.1); a chain is never
longer than the store. -/
def readLatest (entries : List MemoryEntry) (entryId : Nat) :
    Option MemoryEntry :=
  latestFrom entries entries.length entryId

/-! ## Knowledge Graph

Modelled from the spec: the graph module the README lists
(backend/app/pipeline/knowledge_graph.py) is not among the repository's
files; only the SQL schema (src/backend/requirements.txt, tables
`novel_elements` with `UNIQUE(project_id, element_type, element_id)` and
`graph_states`) and the spec (§3, §4.2) describe it. -/

/-- Modelled from the spec: a KnowledgeNode (spec §3) with id, project id,
type, key (unique per project and type), attributes mapping and version
number. -/
structure KNode where
  id : Nat
  project : Nat
  type : String
  key : String
  attrs : List (String × String)
  version : Nat
deriving Repr, DecidableEq

/-- Whether a node is the `(project, type, key)` node. -/
def nodeMatches (project : Nat) (type key : String) (n : KNode) : Bool :=
  n.project == project && n.type == type && n.key == key

/-- The `(project, type, key)` node of the store, if present. -/
def findNode (g : List KNode) (project : Nat) (type key : String) :
    Option KNode :=
  g.find? (nodeMatches project type key)

/-- How many stored nodes carry the `(project, type, key)` identity. -/
def countKey (g : List KNode) (project : Nat) (type key : String) : Nat :=
  g.countP (nodeMatches project type key)

/-- Replace the attributes and bump the version of the
`(project, type, key)` node, leaving every other node untouched. -/
def bumpIf (project : Nat) (type key : String)
    (attrs : List (String × String)) (m : KNode) : KNode :=
  if nodeMatches project type key m then
    { m with attrs := attrs, version := m.version + 1 }
  else m

/-- Modelled from the spec: `upsertNode(projectId, type, key, attributes)`
(spec §4.2) — idempotent on `(project, type, key)`: when no such node
exists a fresh node (id `nextId`, version 1) is inserted; a second call
with identical attributes is a no-op; with different attributes it bumps
the version of that same node in place of creating a second one. -/
def upsertNode (g : List KNode) (nextId project : Nat) (type key : String)
    (attrs : List (String × String)) : List KNode :=
  match findNode g project type key with
  | none => g ++ [⟨nextId, project, type, key, attrs, 1⟩]
  | some n =>
      if n.attrs == attrs then g
      else g.map (bumpIf project type key attrs)

/-- Modelled from the spec: a KnowledgeEdge (spec §3) with source and
target node ids, relation label, attributes and created timestamp. -/
structure KEdge where
  source : Nat
  target : Nat
  relation : String
  attrs : List (String × String)
  created : Nat
deriving Repr, DecidableEq

/-- A project's node/edge store. -/
structure GraphState where
  nodes : List KNode
  edges : List KEdge
deriving Repr, DecidableEq

/-- The graph error taxonomy the claims need (spec §4.2, §7). -/
inductive GraphError where
  | MissingNodeError
deriving Repr, DecidableEq

/-- Whether a node with this id exists. -/
def hasNode (g : GraphState) (nodeId : Nat) : Bool :=
  g.nodes.any fun n => n.id == nodeId

/-- Modelled from the spec:
`addEdge(source, target, relation, attributes)` (spec §4.2) — both
endpoints must exist at creation time; otherwise the call fails with
`MissingNodeError` and stores nothing. -/
def addEdge (g : GraphState) (source target : Nat) (relation : String)
    (attrs : List (String × String)) (now : Nat) :
    Except GraphError GraphState :=
  if hasNode g source && hasNode g target then
    Except.ok
      { g with edges := g.edges ++ [⟨source, target, relation, attrs, now⟩] }
  else Except.error GraphError.MissingNodeError

/-- Edges never dangle: every stored edge's endpoints exist (spec §3). -/
def noDangling (g : GraphState) : Prop :=
  ∀ e ∈ g.edges, hasNode g e.source = true ∧ hasNode g e.target = true

/-! ## Context Assembler

Modelled from the spec: the assembler module the README lists
(backend/app/context_manager.py) is not among the repository's files; the
spec (§4.3) describes `buildContext`. Token counting is an opaque provider
(tiktoken), so the size function is a parameter. -/

/-- Total token size of a segment list under the given size function. -/
def segmentTokens (size : String → Nat) (segs : List String) : Nat :=
  (segs.map size).sum

/-- Keep the longest prefix of whole segments whose total size fits the
budget: the first segment that does not fit cuts the context off at that
segment boundary. -/
def fitSegments (size : String → Nat) (budget : Nat) :
    List String → List String
  | [] => []
  | s :: rest =>
      if size s ≤ budget then s :: fitSegments size (budget - size s) rest
      else []

/-- Modelled from the spec:
`buildContext(recentSegments, retrieved, outline, tokenBudget)` (spec §4.3)
— assembles the bounded context from the inputs in keep-priority order
(retrieved memories, then outline, then the sliding window whose tail is
dropped first), truncating at a segment boundary when the budget is
exceeded. -/
def buildContext (size : String → Nat) (recentSegments retrieved outline :
    List String) (tokenBudget : Nat) : List String :=
  fitSegments size tokenBudget (retrieved ++ outline ++ recentSegments)

/-! ## Generation Orchestrator

Modelled from the spec: the orchestrator module the README lists
(backend/app/pipeline/workflow.py) is not among the repository's files; the
spec (§4.5) gives the per-request state machine
`PENDING → CONTEXT_BUILT → GENERATED → CHECKED → {ACCEPTED | BLOCKED |
RETRYING} → COMMITTED | FAILED` with at most 2 consistency-triggered
retries. -/

/-- Finding severity (spec §3). -/
inductive Severity where
  | info
  | warning
  | blocking
deriving Repr, DecidableEq

/-- Modelled from the spec: a ConsistencyFinding (spec §3), reduced to the
fields the orchestrator claims inspect. -/
structure Finding where
  kind : String
  severity : Severity
  description : String
deriving Repr, DecidableEq

/-- Whether a finding list contains a blocking finding. -/
def hasBlocking (fs : List Finding) : Bool :=
  fs.any fun f => f.severity == Severity.blocking

/-- The per-request phases of the orchestrator state machine (spec §4.5). -/
inductive Phase where
  | PENDING
  | CONTEXT_BUILT
  | GENERATED
  | CHECKED
  | ACCEPTED
  | BLOCKED
  | RETRYING
  | COMMITTED
  | FAILED
deriving Repr, DecidableEq

/-- What a finished request reports: final phase, how many
consistency-triggered retries were taken, the findings returned to the
caller, and whether any memory or graph write occurred. -/
structure Outcome where
  phase : Phase
  retriesUsed : Nat
  findings : List Finding
  wroteMemory : Bool
  wroteGraph : Bool
deriving Repr, DecidableEq

/-- The consistency-retry budget: max 2 consistency-triggered retries
(spec §4.5). -/
def maxConsistencyRetries : Nat := 2

/-- Modelled from the spec: the run of one request from its first CHECKED
state (spec §4.5). `attempts n` is the finding list the Consistency Checker
returns for generation attempt `n`. With blocking findings and budget left,
`CHECKED→RETRYING` re-attempts generation; with the budget exhausted,
`CHECKED→BLOCKED` returns the findings and writes nothing; without blocking
findings, `CHECKED→ACCEPTED→COMMITTED` commits the memory and graph
writes. -/
def runChecked (attempts : Nat → List Finding) (attempt retriesUsed : Nat) :
    Outcome :=
  if hasBlocking (attempts attempt) then
    if h : retriesUsed < maxConsistencyRetries then
      runChecked attempts (attempt + 1) (retriesUsed + 1)
    else
      ⟨Phase.BLOCKED, retriesUsed, attempts attempt, false, false⟩
  else ⟨Phase.COMMITTED, retriesUsed, attempts attempt, true, true⟩
termination_by maxConsistencyRetries - retriesUsed

/-- A whole request: the first check is attempt 0 with no retry used. -/
def runRequest (attempts : Nat → List Finding) : Outcome :=
  runChecked attempts 0 0

end NovelForge

namespace NovelForge

/-! ## Theorems about the editor -/

/-- C8: in the MainContent editor, whenever the undo stack is non-empty,
`handleUndo` followed immediately by `handleRedo` restores the content, the
undo stack and the redo stack to exactly their values before the undo. -/
theorem handleRedo_handleUndo (s : EditorState) (h : s.history ≠ []) :
    handleRedo (handleUndo s) = s := by
  obtain ⟨c, hist, redo⟩ := s
  rcases List.eq_nil_or_concat hist with rfl | ⟨ys, y, rfl⟩
  · simp at h
  · simp [handleUndo, handleRedo, List.getLast?_concat, List.dropLast_concat]

/-- Witness for C8: a concrete editor state with one undo entry. -/
theorem handleRedo_handleUndo_witness :
    (["a"] : List String) ≠ [] ∧
      handleRedo (handleUndo ⟨"b", ["a"], ["c"]⟩) = ⟨"b", ["a"], ["c"]⟩ :=
  ⟨by decide, handleRedo_handleUndo ⟨"b", ["a"], ["c"]⟩ (by decide)⟩

/-- C9: for a selection range `[selStart, selEnd]` of the content,
`handleInsertAtCursor` returns exactly the content before `selStart`, then
the inserted text, then the content from `selEnd` on; every character before
the selection keeps its position, and every character from `selEnd` onward
reappears shifted by `selStart + text.length - selEnd`, in order. -/
theorem handleInsertAtCursor_spec (content text : List Char)
    (selStart selEnd : Nat) (hs : selStart ≤ selEnd)
    (he : selEnd ≤ content.length) :
    handleInsertAtCursor content text selStart selEnd =
      content.take selStart ++ text ++ content.drop selEnd ∧
    (handleInsertAtCursor content text selStart selEnd).length =
      selStart + text.length + (content.length - selEnd) ∧
    (∀ i, i < selStart →
      (handleInsertAtCursor content text selStart selEnd)[i]? = content[i]?) ∧
    (∀ j,
      (handleInsertAtCursor content text selStart selEnd)[selStart + text.length + j]? =
        content[selEnd + j]?) := by
  have hlen : (content.take selStart).length = selStart := by
    rw [List.length_take]
    omega
  refine ⟨rfl, ?_, ?_, ?_⟩
  · simp [handleInsertAtCursor, List.length_take, List.length_drop]
    omega
  · intro i hi
    have h1 : i < (content.take selStart).length := by omega
    rw [handleInsertAtCursor, List.append_assoc, List.getElem?_append_left h1,
      List.getElem?_take, if_pos hi]
  · intro j
    rw [handleInsertAtCursor, List.append_assoc]
    have h1 : (content.take selStart).length ≤ selStart + text.length + j := by
      omega
    rw [List.getElem?_append_right h1, hlen]
    have h2 : selStart + text.length + j - selStart = text.length + j := by omega
    rw [h2]
    have h3 : text.length ≤ text.length + j := Nat.le_add_right _ _
    rw [List.getElem?_append_right h3]
    have h4 : text.length + j - text.length = j := by omega
    rw [h4, List.getElem?_drop]


/-- Prepending a plain character prepends exactly that character to the
joined text. -/
theorem joinFragments_pushPlain (c : Char) (fs : List Fragment) :
    joinFragments (pushPlain c fs) = c :: joinFragments fs := by
  match fs with
  | [] => rfl
  | Fragment.plain s :: fs => rfl
  | Fragment.token k s :: fs => rfl

/-- Concatenating the source text of all fragments emitted by
`highlightContent`, in order, reproduces the input exactly. -/
theorem joinFragments_highlightContent (l : List Char) :
    joinFragments (highlightContent l) = l := by
  induction l using highlightContent.induct with
  | case1 => rw [highlightContent]; rfl
  | case2 c k hk =>
      rw [highlightContent]
      simp only [hk]
      rfl
  | case3 c k hk d tl hname ih =>
      rw [highlightContent]
      simp only [hk, if_pos hname]
      show (c :: (d :: tl).takeWhile isNameChar) ++
          joinFragments (highlightContent ((d :: tl).dropWhile isNameChar)) = c :: d :: tl
      rw [List.cons_append, ih, List.takeWhile_append_dropWhile]
  | case4 c k hk d tl hname ih =>
      rw [highlightContent]
      simp only [hk, if_neg hname]
      rw [joinFragments_pushPlain, ih]
  | case5 c tl hk ih =>
      rw [highlightContent]
      simp only [hk]
      rw [joinFragments_pushPlain, ih]

/-- C10: for every non-empty input, `highlightContent` partitions the text
into plain slices and matched `@character` / `#location` / `*item` tokens:
concatenating the source text of all emitted fragments, in order,
reproduces the input exactly, with no character dropped, duplicated or
reordered. -/
theorem highlightContent_partitions (text : List Char) (_h : text ≠ []) :
    joinFragments (highlightContent text) = text :=
  joinFragments_highlightContent text

/-- Witness for C10: a concrete line mixing plain text with all three token
kinds. -/
theorem highlightContent_partitions_witness :
    ("hi @李航 at #城-x with *sword!" : String).toList ≠ [] ∧
      joinFragments (highlightContent ("hi @李航 at #城-x with *sword!" : String).toList) =
        ("hi @李航 at #城-x with *sword!" : String).toList :=
  ⟨by decide, highlightContent_partitions _ (by decide)⟩

/-- The kept prefix of whole segments always fits the budget. -/
theorem segmentTokens_fitSegments (size : String → Nat) (budget : Nat)
    (segs : List String) :
    segmentTokens size (fitSegments size budget segs) ≤ budget := by
  induction segs generalizing budget with
  | nil => simp [fitSegments, segmentTokens]
  | cons s rest ih =>
      rw [fitSegments]
      by_cases h : size s ≤ budget
      · rw [if_pos h]
        have := ih (budget - size s)
        simp only [segmentTokens, List.map_cons, List.sum_cons] at *
        omega
      · rw [if_neg h]
        simp [segmentTokens]

/-- `fitSegments` returns a prefix of whole segments: the cut falls on a
segment boundary. -/
theorem fitSegments_eq_take (size : String → Nat) (budget : Nat)
    (segs : List String) :
    ∃ k, fitSegments size budget segs = segs.take k := by
  induction segs generalizing budget with
  | nil => exact ⟨0, rfl⟩
  | cons s rest ih =>
      rw [fitSegments]
      by_cases h : size s ≤ budget
      · obtain ⟨k, hk⟩ := ih (budget - size s)
        exact ⟨k + 1, by rw [if_pos h, hk]; rfl⟩
      · exact ⟨0, by rw [if_neg h]; rfl⟩

/-- C1: for every size function, every list of recent segments, retrieved
memories and outline segments, and every token budget, the context
`buildContext` returns never exceeds the budget, and anything dropped to
fit is cut at a segment boundary: the result is a prefix of the
priority-ordered segment list, so no segment is returned partially. -/
theorem buildContext_spec (size : String → Nat)
    (recentSegments retrieved outline : List String) (tokenBudget : Nat) :
    segmentTokens size
        (buildContext size recentSegments retrieved outline tokenBudget) ≤
      tokenBudget ∧
    ∃ k, buildContext size recentSegments retrieved outline tokenBudget =
      (retrieved ++ outline ++ recentSegments).take k :=
  ⟨segmentTokens_fitSegments size tokenBudget _,
    fitSegments_eq_take size tokenBudget _⟩

/-- C6: for every sequence of checker results, a request retries at most 2
times on blocking findings; it ends BLOCKED exactly when attempts 0, 1 and
2 all produce blocking findings, and a BLOCKED request has used its whole
retry budget, returns the findings of the last attempt to the caller, and
performs no memory write and no graph write. -/
theorem runRequest_spec (attempts : Nat → List Finding) :
    (runRequest attempts).retriesUsed ≤ 2 ∧
    ((runRequest attempts).phase = Phase.BLOCKED ↔
      hasBlocking (attempts 0) = true ∧ hasBlocking (attempts 1) = true ∧
        hasBlocking (attempts 2) = true) ∧
    ((runRequest attempts).phase = Phase.BLOCKED →
      (runRequest attempts).wroteMemory = false ∧
      (runRequest attempts).wroteGraph = false ∧
      (runRequest attempts).findings = attempts 2 ∧
      (runRequest attempts).retriesUsed = 2) := by
  by_cases h0 : hasBlocking (attempts 0) <;>
    by_cases h1 : hasBlocking (attempts 1) <;>
      by_cases h2 : hasBlocking (attempts 2) <;>
        simp [runRequest, runChecked, maxConsistencyRetries, h0, h1, h2]

/-- C7: `addEdge` fails with `MissingNodeError` exactly when at least one
endpoint node is absent; a successful call leaves the nodes unchanged,
stores exactly the one new edge, and both endpoints existed; on failure
nothing is stored; and the no-dangling-edges invariant is preserved. -/
theorem addEdge_spec (g : GraphState) (source target : Nat)
    (relation : String) (attrs : List (String × String)) (now : Nat) :
    (addEdge g source target relation attrs now =
        Except.error GraphError.MissingNodeError ↔
      hasNode g source = false ∨ hasNode g target = false) ∧
    (∀ g', addEdge g source target relation attrs now = Except.ok g' →
      g'.nodes = g.nodes ∧
      g'.edges = g.edges ++ [⟨source, target, relation, attrs, now⟩] ∧
      hasNode g source = true ∧ hasNode g target = true) ∧
    (noDangling g → ∀ g',
      addEdge g source target relation attrs now = Except.ok g' →
      noDangling g') := by
  by_cases hs : hasNode g source <;> by_cases ht : hasNode g target <;>
    simp only [addEdge, hs, ht, Bool.and_self, Bool.and_true, Bool.true_and,
      Bool.and_false, Bool.false_and, if_true, if_false,
      Bool.true_eq_false, Bool.false_eq_true]
  · refine ⟨by simp, ?_, ?_⟩
    · intro g' hg'
      injection hg' with h
      subst h
      simp [hs, ht]
    · intro hnd g' hg'
      injection hg' with h
      subst h
      intro e he
      rcases List.mem_append.mp he with hmem | hmem
      · exact hnd e hmem
      · rcases List.mem_singleton.mp hmem with rfl
        exact ⟨hs, ht⟩
  · simp [ht]
  · simp [hs]
  · simp [hs]

/-- `bumpIf` changes only attributes and version, never the
`(project, type, key)` identity of a node. -/
theorem nodeMatches_bumpIf (project : Nat) (type key : String)
    (attrs : List (String × String)) (m : KNode) :
    nodeMatches project type key (bumpIf project type key attrs m) =
      nodeMatches project type key m := by
  unfold bumpIf
  split <;> rfl

/-- The fresh node inserted by `upsertNode` carries the requested
identity. -/
theorem nodeMatches_self (nextId project : Nat) (type key : String)
    (attrs : List (String × String)) (version : Nat) :
    nodeMatches project type key ⟨nextId, project, type, key, attrs, version⟩ =
      true := by
  simp [nodeMatches]

/-- A second `upsertNode` with the same identity and attributes is a no-op,
for every store, so any number of repeated identical calls leaves exactly
the one node the first call produced. -/
theorem upsertNode_idem (g : List KNode) (nextId nextId' project : Nat)
    (type key : String) (attrs : List (String × String)) :
    upsertNode (upsertNode g nextId project type key attrs) nextId' project
        type key attrs =
      upsertNode g nextId project type key attrs := by
  rcases hf : findNode g project type key with _ | m
  · have h1 : upsertNode g nextId project type key attrs =
        g ++ [⟨nextId, project, type, key, attrs, 1⟩] := by
      rw [upsertNode, hf]
    have h2 : findNode (g ++ [⟨nextId, project, type, key, attrs, 1⟩])
        project type key = some ⟨nextId, project, type, key, attrs, 1⟩ := by
      unfold findNode at hf ⊢
      rw [List.find?_append, hf]
      simp [nodeMatches_self]
    rw [h1, upsertNode, h2]
    simp
  · rcases ha : (m.attrs == attrs) with _ | _
    · have h1 : upsertNode g nextId project type key attrs =
          g.map (bumpIf project type key attrs) := by
        rw [upsertNode, hf]
        simp [ha]
      have hm : nodeMatches project type key m = true := List.find?_some hf
      have h2 : findNode (g.map (bumpIf project type key attrs))
          project type key = some (bumpIf project type key attrs m) := by
        unfold findNode at hf ⊢
        rw [List.find?_map,
          show (nodeMatches project type key ∘ bumpIf project type key attrs) =
              nodeMatches project type key from
            funext fun m' => nodeMatches_bumpIf project type key attrs m',
          hf]
        rfl
      have h3 : (bumpIf project type key attrs m).attrs = attrs := by
        unfold bumpIf
        rw [if_pos hm]
      rw [h1, upsertNode, h2]
      simp [h3]
    · have h1 : upsertNode g nextId project type key attrs = g := by
        rw [upsertNode, hf]
        simp [ha]
      rw [h1, upsertNode, hf]
      simp [ha]

/-- C2: repeated `upsertNode` with identical attributes yields exactly one
node for a `(project, type, key)` — the second and every later identical
call is a no-op — while a call that changes the attributes of an existing
node keeps the store's size and the number of nodes with that key
unchanged and turns the node into its next version (same identity, new
attributes, version incremented) instead of creating a second node. -/
theorem upsertNode_spec (g : List KNode) (nextId project : Nat)
    (type key : String) (attrs : List (String × String)) (n : KNode)
    (hfind : findNode g project type key = some n) (hne : n.attrs ≠ attrs) :
    (∀ g₀ i i',
      upsertNode (upsertNode g₀ i project type key attrs) i' project type key
          attrs =
        upsertNode g₀ i project type key attrs) ∧
    (upsertNode g nextId project type key attrs).length = g.length ∧
    countKey (upsertNode g nextId project type key attrs) project type key =
      countKey g project type key ∧
    findNode (upsertNode g nextId project type key attrs) project type key =
      some { n with attrs := attrs, version := n.version + 1 } := by
  have ha : (n.attrs == attrs) = false := by
    simp [hne]
  have h1 : upsertNode g nextId project type key attrs =
      g.map (bumpIf project type key attrs) := by
    rw [upsertNode, hfind]
    simp [ha]
  have hcomp : (nodeMatches project type key ∘ bumpIf project type key attrs) =
      nodeMatches project type key :=
    funext fun m' => nodeMatches_bumpIf project type key attrs m'
  have hm : nodeMatches project type key n = true := List.find?_some hfind
  refine ⟨fun g₀ i i' => upsertNode_idem g₀ i i' project type key attrs,
    ?_, ?_, ?_⟩
  · rw [h1, List.length_map]
  · rw [h1]
    unfold countKey
    rw [List.countP_map, hcomp]
  · rw [h1]
    unfold findNode at hfind ⊢
    rw [List.find?_map, hcomp, hfind]
    simp [bumpIf, hm]

/-- Witness for C2: one stored character node whose attributes change. -/
theorem upsertNode_spec_witness :
    (findNode [⟨0, 1, "character", "hero", [("hp", "1")], 1⟩] 1 "character"
          "hero" = some ⟨0, 1, "character", "hero", [("hp", "1")], 1⟩ ∧
        ([("hp", "1")] : List (String × String)) ≠ [("hp", "2")]) ∧
    ((∀ g₀ i i',
        upsertNode (upsertNode g₀ i 1 "character" "hero" [("hp", "2")]) i' 1
            "character" "hero" [("hp", "2")] =
          upsertNode g₀ i 1 "character" "hero" [("hp", "2")]) ∧
      (upsertNode [⟨0, 1, "character", "hero", [("hp", "1")], 1⟩] 5 1
          "character" "hero" [("hp", "2")]).length =
        ([⟨0, 1, "character", "hero", [("hp", "1")], 1⟩] : List KNode).length ∧
      countKey (upsertNode [⟨0, 1, "character", "hero", [("hp", "1")], 1⟩] 5 1
          "character" "hero" [("hp", "2")]) 1 "character" "hero" =
        countKey [⟨0, 1, "character", "hero", [("hp", "1")], 1⟩] 1 "character"
          "hero" ∧
      findNode (upsertNode [⟨0, 1, "character", "hero", [("hp", "1")], 1⟩] 5 1
          "character" "hero" [("hp", "2")]) 1 "character" "hero" =
        some ⟨0, 1, "character", "hero", [("hp", "2")], 2⟩) :=
  ⟨⟨by decide, by decide⟩,
    upsertNode_spec [⟨0, 1, "character", "hero", [("hp", "1")], 1⟩] 5 1
      "character" "hero" [("hp", "2")]
      ⟨0, 1, "character", "hero", [("hp", "1")], 1⟩ (by decide) (by decide)⟩

/-- The ranking order is total: for any two candidates, one ranks at or
before the other. -/
theorem rankRel_total (sim : List Int → List Int → Int) (eps : Int)
    (q : List Int) (a b : MemoryEntry) :
    rankRel sim eps q a b ∨ rankRel sim eps q b a := by
  unfold rankRel
  rcases le_or_lt (|simScore sim q a - simScore sim q b|) eps with hle | hlt
  · rcases le_total b.created a.created with hc | hc
    · exact Or.inl (Or.inr ⟨hle, hc⟩)
    · refine Or.inr (Or.inr ⟨?_, hc⟩)
      rwa [abs_sub_comm]
  · rcases le_total (simScore sim q a) (simScore sim q b) with hs | hs
    · refine Or.inr (Or.inl ?_)
      rw [abs_sub_comm, abs_of_nonneg (by omega)] at hlt
      omega
    · refine Or.inl (Or.inl ?_)
      rw [abs_of_nonneg (by omega)] at hlt
      omega

/-- Inserting into a chain of a total relation yields a chain, without any
transitivity assumption on the relation. -/
theorem chain'_orderedInsert {α : Type} (r : α → α → Prop) [DecidableRel r]
    (total : ∀ x y, r x y ∨ r y x) (a : α) :
    ∀ l : List α, l.Chain' r → (l.orderedInsert r a).Chain' r := by
  intro l
  induction l with
  | nil => intro _; simp [List.orderedInsert]
  | cons b t ih =>
      intro h
      rw [List.orderedInsert]
      by_cases hr : r a b
      · rw [if_pos hr]
        exact List.chain'_cons.mpr ⟨hr, h⟩
      · rw [if_neg hr]
        have hba : r b a := (total a b).resolve_left hr
        match t, h with
        | [], _ => simp [List.orderedInsert, hba]
        | c :: t', h =>
            obtain ⟨hbc, hct⟩ := List.chain'_cons.mp h
            have iht := ih hct
            by_cases hac : r a c
            · rw [List.orderedInsert, if_pos hac]
              rw [List.orderedInsert, if_pos hac] at iht
              exact List.chain'_cons.mpr ⟨hba, iht⟩
            · rw [List.orderedInsert, if_neg hac]
              rw [List.orderedInsert, if_neg hac] at iht
              exact List.chain'_cons.mpr ⟨hbc, iht⟩

/-- Insertion sort by a total relation produces a chain: every element
ranks at or before its successor. -/
theorem chain'_insertionSort {α : Type} (r : α → α → Prop) [DecidableRel r]
    (total : ∀ x y, r x y ∨ r y x) (l : List α) :
    (l.insertionSort r).Chain' r := by
  induction l with
  | nil => simp
  | cons a t ih =>
      rw [List.insertionSort]
      exact chain'_orderedInsert r total a _ ih

/-- C3: every query result list is ranked: each returned entry ranks at or
before its successor under the similarity order with epsilon-recency
tie-break (newer wins within the epsilon), and every returned entry comes
from the store, belongs to the queried project and passes the metadata
filter. -/
theorem query_spec (sim : List Int → List Int → Int) (eps : Int)
    (embed : String → List Int) (entries : List MemoryEntry)
    (project : Nat) (text : String) (fil : MemoryEntry → Bool)
    (topK : Nat) :
    (query sim eps embed entries project text fil topK).Chain'
        (rankRel sim eps (embed text)) ∧
    ∀ e ∈ query sim eps embed entries project text fil topK,
      e.project = project ∧ fil e = true ∧ e ∈ entries := by
  constructor
  · exact (chain'_insertionSort _ (rankRel_total sim eps (embed text))
      _).take topK
  · intro e he
    have h1 : e ∈ (entries.filter fun e =>
        e.project == project && fil e).insertionSort
          (rankRel sim eps (embed text)) :=
      List.mem_of_mem_take he
    have h2 := (List.perm_insertionSort
      (rankRel sim eps (embed text)) _).mem_iff.mp h1
    have h3 := List.mem_filter.mp h2
    have h4 := h3.2
    simp only [Bool.and_eq_true, beq_iff_eq] at h4
    exact ⟨h4.1, h4.2, h3.1⟩

/-- An element that ranks at or before every candidate, and that no other
candidate ranks at or before, is sorted to the front. -/
theorem head_insertionSort_dominant {α : Type} (r : α → α → Prop)
    [DecidableRel r] (a : α) :
    ∀ l : List α, a ∈ l → (∀ b ∈ l, r a b) →
      (∀ b ∈ l, b ≠ a → ¬ r b a) →
      (l.insertionSort r).head? = some a := by
  intro l
  induction l with
  | nil => intro h; exact absurd h (List.not_mem_nil a)
  | cons x t ih =>
      intro hmem hdom hnodom
      rw [List.insertionSort]
      by_cases hat : a ∈ t
      · have iht := ih hat (fun b hb => hdom b (List.mem_cons_of_mem x hb))
          (fun b hb => hnodom b (List.mem_cons_of_mem x hb))
        obtain ⟨t₀, ht₀⟩ : ∃ t₀, t.insertionSort r = a :: t₀ := by
          cases h : t.insertionSort r with
          | nil => rw [h] at iht; exact absurd iht (by simp)
          | cons y t₀ =>
              rw [h] at iht
              simp only [List.head?_cons, Option.some.injEq] at iht
              exact ⟨t₀, by rw [iht]⟩
        rw [ht₀, List.orderedInsert]
        by_cases hxa : x = a
        · subst hxa
          by_cases hxx : r x x
          · rw [if_pos hxx]
            rfl
          · rw [if_neg hxx]
            rfl
        · rw [if_neg (hnodom x (List.mem_cons_self x t) hxa)]
          rfl
      · have hxa : x = a := by
          rcases List.mem_cons.mp hmem with h | h
          · exact h.symm
          · exact absurd h hat
        subst hxa
        cases h : t.insertionSort r with
        | nil => rw [List.orderedInsert]; rfl
        | cons c t₀ =>
            have hct : c ∈ t := by
              have : c ∈ t.insertionSort r := by
                rw [h]
                exact List.mem_cons_self c t₀
              exact (List.perm_insertionSort r t).mem_iff.mp this
            rw [List.orderedInsert,
              if_pos (hdom c (List.mem_cons_of_mem x hct))]
            rfl

/-- C4: adding an entry with content `C` and then querying the same project
with `C` itself and `topK ≥ 1` returns that entry among the results, with
similarity exactly the maximal score 1 (the integer standing for cosine
1.0). The hypotheses state what the spec guarantees about the opaque
embedding provider (a text always embeds to the same vector, cosine
similarity of a vector with itself is 1 and is the maximum) and that the
store's clock is monotone (everything already stored is older). -/
theorem query_roundtrip (sim : List Int → List Int → Int) (eps : Int)
    (embed : String → List Int) (entries : List MemoryEntry)
    (nextId project : Nat) (kind C : String)
    (md : List (String × String)) (now topK : Nat)
    (hrefl : sim (embed C) (embed C) = 1)
    (hmax : ∀ v, sim (embed C) v ≤ 1)
    (heps : 0 ≤ eps)
    (hnew : ∀ e ∈ entries, e.created < now)
    (htopK : 1 ≤ topK) :
    (⟨nextId, project, kind, C, md, embed C, now, none⟩ : MemoryEntry) ∈
      query sim eps embed (addEntry embed entries nextId project kind C md now)
        project C (fun _ => true) topK ∧
    simScore sim (embed C)
      (⟨nextId, project, kind, C, md, embed C, now, none⟩ : MemoryEntry) = 1 := by
  set newE : MemoryEntry := ⟨nextId, project, kind, C, md, embed C, now, none⟩
    with hnewE
  have hscore : simScore sim (embed C) newE = 1 := hrefl
  refine ⟨?_, hscore⟩
  have hcand : (addEntry embed entries nextId project kind C md now).filter
      (fun e => e.project == project && true) =
      entries.filter (fun e => e.project == project && true) ++ [newE] := by
    rw [addEntry, List.filter_append]
    simp
  have hmemcand : newE ∈ entries.filter (fun e => e.project == project &&
      true) ++ [newE] := by
    simp
  have hnotnew : ∀ b ∈ entries.filter (fun e => e.project == project &&
      true) ++ [newE], b ≠ newE →
      ¬ rankRel sim eps (embed C) b newE := by
    intro b hb hbne hr
    have hbent : b ∈ entries := by
      rcases List.mem_append.mp hb with h | h
      · exact (List.mem_filter.mp h).1
      · exact absurd (List.mem_singleton.mp h) hbne
    have hbold : b.created < now := hnew b hbent
    have hble : simScore sim (embed C) b ≤ 1 := hmax b.embedding
    rcases hr with h | h
    · rw [hscore] at h
      omega
    · have : now ≤ b.created := h.2
      omega
  have hdom : ∀ b ∈ entries.filter (fun e => e.project == project &&
      true) ++ [newE],
      rankRel sim eps (embed C) newE b := by
    intro b hb
    by_cases hbne : b = newE
    · subst hbne
      exact Or.inr ⟨by simp [heps], le_refl _⟩
    · exact (rankRel_total sim eps (embed C) newE b).resolve_right
        (hnotnew b hb hbne)
  have hhead := head_insertionSort_dominant (rankRel sim eps (embed C)) newE
    _ hmemcand hdom hnotnew
  unfold query
  dsimp only
  rw [hcand]
  obtain ⟨t₀, ht₀⟩ : ∃ t₀, (entries.filter (fun e => e.project == project &&
      true) ++ [newE]).insertionSort
        (rankRel sim eps (embed C)) = newE :: t₀ := by
    cases h : (entries.filter (fun e => e.project == project &&
        true) ++ [newE]).insertionSort
          (rankRel sim eps (embed C)) with
    | nil => rw [h] at hhead; exact absurd hhead (by simp)
    | cons y t₀ =>
        rw [h] at hhead
        simp only [List.head?_cons, Option.some.injEq] at hhead
        exact ⟨t₀, by rw [hhead]⟩
  rw [ht₀]
  obtain ⟨k, rfl⟩ : ∃ k, topK = k + 1 := ⟨topK - 1, by omega⟩
  rw [List.take_succ_cons]
  exact List.mem_cons_self newE _

/-- Witness for C4: a one-entry store, a discrete similarity provider and a
length embedding; the entry added with content `"hello"` comes back first
with similarity 1. -/
theorem query_roundtrip_witness :
    ((fun v w => if v == w then (1 : Int) else 0) [(5 : Int)] [(5 : Int)] = 1 ∧
      (∀ v : List Int,
        (fun v w => if v == w then (1 : Int) else 0) [(5 : Int)] v ≤ 1) ∧
      (0 : Int) ≤ 0 ∧
      (∀ e ∈ [(⟨0, 7, "event", "old", [], [99], 3, none⟩ : MemoryEntry)],
        e.created < 10) ∧
      (1 : Nat) ≤ 1) ∧
    ((⟨1, 7, "event", "hello", [], [(5 : Int)], 10, none⟩ : MemoryEntry) ∈
        query (fun v w => if v == w then (1 : Int) else 0) 0
          (fun s => [(s.length : Int)])
          (addEntry (fun s => [(s.length : Int)])
            [⟨0, 7, "event", "old", [], [99], 3, none⟩] 1 7 "event" "hello"
            [] 10)
          7 "hello" (fun _ => true) 1 ∧
      simScore (fun v w => if v == w then (1 : Int) else 0) [(5 : Int)]
        ⟨1, 7, "event", "hello", [], [(5 : Int)], 10, none⟩ = 1) :=
  ⟨⟨by decide, fun v => by dsimp only; split <;> decide, by decide,
      by decide, by decide⟩,
    query_roundtrip (fun v w => if v == w then (1 : Int) else 0) 0
      (fun s => [(s.length : Int)]) [⟨0, 7, "event", "old", [], [99], 3, none⟩]
      1 7 "event" "hello" [] 10 1
      (by decide) (fun v => by dsimp only; split <;> decide) (by decide)
      (by decide) (by decide)⟩

/-- C5: `updateEntry` never modifies a stored entry in place and never
deletes one: the store after an update is exactly the old store, verbatim,
plus one appended new version whose chain pointer names the updated entry.
Reading the old id as a specific version still returns the original entry
unchanged, while a plain read of the chain returns the new latest version.
The hypotheses say the update targets the latest version of an existing
entry and that `nextId` is fresh. -/
theorem updateEntry_spec (embed : String → List Int)
    (entries : List MemoryEntry) (nextId now entryId : Nat)
    (newContent : String) (e0 : MemoryEntry)
    (hfind : findEntry entries entryId = some e0)
    (hlast : successorOf entries entryId = none)
    (hfresh : ∀ e ∈ entries, e.id ≠ nextId ∧ e.prevVersion ≠ some nextId) :
    updateEntry embed entries nextId now entryId newContent =
      entries ++ [{ e0 with
        id := nextId
        content := newContent
        embedding := embed newContent
        created := now
        prevVersion := some entryId }] ∧
    ({ e0 with
        id := nextId
        content := newContent
        embedding := embed newContent
        created := now
        prevVersion := some entryId } : MemoryEntry).prevVersion =
      some entryId ∧
    findEntry (updateEntry embed entries nextId now entryId newContent)
        entryId = some e0 ∧
    readLatest (updateEntry embed entries nextId now entryId newContent)
        entryId =
      some { e0 with
        id := nextId
        content := newContent
        embedding := embed newContent
        created := now
        prevVersion := some entryId } := by
  set newE : MemoryEntry := { e0 with
    id := nextId
    content := newContent
    embedding := embed newContent
    created := now
    prevVersion := some entryId } with hnewE
  have hmem0 : e0 ∈ entries := List.mem_of_find?_eq_some hfind
  have hid0 : (e0.id == entryId) = true := by
    have h := hfind
    unfold findEntry at h
    have h2 := List.find?_some h
    exact h2
  have hid0' : e0.id = entryId := beq_iff_eq.mp hid0
  have hne : entryId ≠ nextId := by
    have := (hfresh e0 hmem0).1
    omega
  have h1 : updateEntry embed entries nextId now entryId newContent =
      entries ++ [newE] := by
    rw [updateEntry, hfind]
  have hfind' : findEntry (entries ++ [newE]) entryId = some e0 := by
    unfold findEntry at hfind ⊢
    rw [List.find?_append, hfind]
    rfl
  have hsucc' : successorOf (entries ++ [newE]) entryId = some newE := by
    unfold successorOf at hlast ⊢
    rw [List.find?_append, hlast]
    simp
  have hfindNew : findEntry (entries ++ [newE]) nextId = some newE := by
    unfold findEntry
    rw [List.find?_append]
    have : entries.find? (fun e => e.id == nextId) = none :=
      List.find?_eq_none.mpr fun e he => by
        simp [(hfresh e he).1]
    rw [this]
    simp
  have hsuccNew : successorOf (entries ++ [newE]) nextId = none := by
    unfold successorOf
    rw [List.find?_append]
    have h2 : entries.find? (fun e => e.prevVersion == some nextId) = none :=
      List.find?_eq_none.mpr fun e he => by
        simp [(hfresh e he).2]
    rw [h2]
    simp [hne]
  obtain ⟨K, hK⟩ : ∃ K, entries.length = K + 1 :=
    ⟨entries.length - 1, by
      have := List.length_pos_of_mem hmem0
      omega⟩
  have hlen2 : (entries ++ [newE]).length = K + 1 + 1 := by
    rw [List.length_append, hK]
    rfl
  refine ⟨h1, rfl, by rw [h1]; exact hfind', ?_⟩
  have hstep : latestFrom (entries ++ [newE]) (K + 1) nextId = some newE := by
    rw [latestFrom, hfindNew, hsuccNew]
  rw [h1, readLatest, hlen2, latestFrom, hfind', hsucc']
  exact hstep

/-- Witness for C5: updating the single entry of a one-entry store appends
a linked new version and leaves the original readable. -/
theorem updateEntry_spec_witness :
    (findEntry [(⟨0, 7, "event", "x", [], [1], 5, none⟩ : MemoryEntry)] 0 =
        some ⟨0, 7, "event", "x", [], [1], 5, none⟩ ∧
      successorOf [(⟨0, 7, "event", "x", [], [1], 5, none⟩ : MemoryEntry)] 0 =
        none ∧
      (∀ e ∈ [(⟨0, 7, "event", "x", [], [1], 5, none⟩ : MemoryEntry)],
        e.id ≠ 3 ∧ e.prevVersion ≠ some 3)) ∧
    (updateEntry (fun s => [(s.length : Int)])
        [⟨0, 7, "event", "x", [], [1], 5, none⟩] 3 9 0 "xy" =
      [⟨0, 7, "event", "x", [], [1], 5, none⟩] ++
        [⟨3, 7, "event", "xy", [], [(2 : Int)], 9, some 0⟩] ∧
      (⟨3, 7, "event", "xy", [], [(2 : Int)], 9, some 0⟩ :
          MemoryEntry).prevVersion = some 0 ∧
      findEntry (updateEntry (fun s => [(s.length : Int)])
          [⟨0, 7, "event", "x", [], [1], 5, none⟩] 3 9 0 "xy") 0 =
        some ⟨0, 7, "event", "x", [], [1], 5, none⟩ ∧
      readLatest (updateEntry (fun s => [(s.length : Int)])
          [⟨0, 7, "event", "x", [], [1], 5, none⟩] 3 9 0 "xy") 0 =
        some ⟨3, 7, "event", "xy", [], [(2 : Int)], 9, some 0⟩) :=
  ⟨⟨by decide, by decide, by decide⟩,
    updateEntry_spec (fun s => [(s.length : Int)])
      [⟨0, 7, "event", "x", [], [1], 5, none⟩] 3 9 0 "xy"
      ⟨0, 7, "event", "x", [], [1], 5, none⟩
      (by decide) (by decide) (by decide)⟩

/-- Witness for C9: inserting `"XY"` into `"hello"` with selection `[1, 3]`. -/
theorem handleInsertAtCursor_spec_witness :
    ((1 : Nat) ≤ 3 ∧ (3 : Nat) ≤ (['h', 'e', 'l', 'l', 'o'] : List Char).length) ∧
    (handleInsertAtCursor ['h', 'e', 'l', 'l', 'o'] ['X', 'Y'] 1 3 =
        (['h', 'e', 'l', 'l', 'o'] : List Char).take 1 ++ ['X', 'Y'] ++
          (['h', 'e', 'l', 'l', 'o'] : List Char).drop 3 ∧
      (handleInsertAtCursor ['h', 'e', 'l', 'l', 'o'] ['X', 'Y'] 1 3).length =
        1 + (['X', 'Y'] : List Char).length + ((['h', 'e', 'l', 'l', 'o'] : List Char).length - 3) ∧
      (∀ i, i < 1 →
        (handleInsertAtCursor ['h', 'e', 'l', 'l', 'o'] ['X', 'Y'] 1 3)[i]? =
          (['h', 'e', 'l', 'l', 'o'] : List Char)[i]?) ∧
      (∀ j,
        (handleInsertAtCursor ['h', 'e', 'l', 'l', 'o'] ['X', 'Y'] 1 3)[1 + (['X', 'Y'] : List Char).length + j]? =
          (['h', 'e', 'l', 'l', 'o'] : List Char)[3 + j]?)) :=
  ⟨⟨by decide, by decide⟩,
    handleInsertAtCursor_spec ['h', 'e', 'l', 'l', 'o'] ['X', 'Y'] 1 3
      (by decide) (by decide)⟩

end NovelForge
